import Mathlib

/-!
Verification of the spawn-tracker core pipeline (tail-read, parse,
correlate/dedup, report) against its natural-language specification.

The definitions below are a shallow embedding of the TypeScript source:
  - `src/src/parser.ts` — `parseSlainLine`, `parseEarthquakeLine` and the
    four kill-line regular expressions, embedded via a small backtracking
    regex engine (`M`, `search`) that reproduces the JavaScript semantics
    used by the source patterns: leftmost match, lazy (`+?`) and greedy
    (`+`, `*`, `?`) preference, named capture groups, `$` end anchor.
  - `src/src/main/main.ts` — `normalizeForDedup`, the pending-correlation
    buffer (`handleKill`, `fireDue`), the tail cursor (`tickRead`),
    `stopWatching`, `startWatching` and the report outcome mapping.
Wall-clock timestamps (`killedAt`) are omitted from the embedded event
record; time enters the correlator model as explicit numeric instants.
-/

/-! ## Character-level helpers (JavaScript `\s`, `.`, `\d`, lowercasing) -/

/-- JavaScript whitespace class `\s` (WhiteSpace plus LineTerminator),
used by `trim()`, `replace(/\s+/g, " ")` and the `\s` atoms of the
source regexes. -/
def isWsB (c : Char) : Bool :=
  c == ' ' || c == '\t' || c == '\n' || c == '\r' || c == '\x0b' || c == '\x0c' ||
  c == '\u00A0' || c == '\u1680' || ('\u2000' ≤ c && c ≤ '\u200A') || c == '\u2028' ||
  c == '\u2029' || c == '\u202F' || c == '\u205F' || c == '\u3000' || c == '\uFEFF'

/-- JavaScript `.` (any character but a line terminator). -/
def isDotB (c : Char) : Bool :=
  !(c == '\n' || c == '\r' || c == '\u2028' || c == '\u2029')

/-- JavaScript `\d` (ASCII digits). -/
def isDigitB (c : Char) : Bool := '0' ≤ c && c ≤ '9'

/-- `String.prototype.trim`: drop leading whitespace. -/
def dropWs (l : List Char) : List Char := l.dropWhile isWsB

/-- `String.prototype.trim`: drop leading and trailing whitespace. -/
def trimWs (l : List Char) : List Char :=
  ((dropWs l).reverse.dropWhile isWsB).reverse

/-- `replace(/\s+/g, " ")`: the flag records whether the previous kept
character position was inside a whitespace run (in which case further
whitespace is swallowed rather than emitting another space). -/
def collapseGo : Bool → List Char → List Char
  | _, [] => []
  | prevWs, c :: rest =>
    if isWsB c then
      (if prevWs then [] else [' ']) ++ collapseGo true rest
    else
      c :: collapseGo false rest

/-- `replace(/\s+/g, " ")` on a whole string. -/
def collapseWs (l : List Char) : List Char := collapseGo false l

/-- `replace(/_/g, " ")` character map. -/
def uscToSpace (c : Char) : Char := if c == '_' then ' ' else c

/-- `normalizeForDedup` (main.ts:35-37):
`name.replace(/^#+/, "").replace(/_/g, " ").toLowerCase().trim().replace(/\s+/g, " ")`.
`toLowerCase` is embedded as `Char.toLower` (ASCII case mapping). -/
def normalizeForDedup (s : String) : String :=
  ⟨collapseWs (trimWs (((s.data.dropWhile (fun c => c == '#')).map uscToSpace).map Char.toLower))⟩

/-! ## Event records and the correlator (main.ts:39-44, 280-302) -/

/-- The `SlainMatch` record of parser.ts (the `killedAt : Date` wall-clock
field is not embedded; the correlator model carries explicit times). -/
structure SlainMatch where
  npcName : String
  zone : Option String := none
  pvp : Nat
  playerName : Option String := none
  guildName : Option String := none
deriving DecidableEq, Repr

/-- `EarthquakeMatch` of parser.ts. -/
structure EarthquakeMatch where
  days : Nat
  hours : Nat
  minutes : Nat
  seconds : Nat
deriving DecidableEq, Repr

/-- `BUFFER_MS` (main.ts:44). -/
def BUFFER_MS : Nat := 2000

/-- Connection-status signal names sent over the `connection-status`
channel by the main process. -/
inductive ConnStatus where
  | stopped
  | connected
  | missing_config
  | file_not_found
  | server_offline
  | invalid_key
  | error
deriving DecidableEq, Repr

/-- One pending non-PVP correlation: key, buffered event, timer deadline
(arrival instant + `BUFFER_MS`). Embeds one entry of `pendingNonPvp`. -/
abbrev Pending := String × SlainMatch × Nat

/-- The mutable module state of main.ts: `watcherTimer` (carrying the
polling interval in ms when armed), `logPosition`, `logPath`,
`pendingNonPvp`, plus the list of reports sent so far (each `reportSlain`
call, timestamped). -/
structure AppState where
  watcherTimer : Option Nat := none
  logPosition : Nat := 0
  logPath : Option String := none
  pending : List Pending := []
  reports : List (Nat × SlainMatch) := []
deriving DecidableEq, Repr

/-- The initial module state (main.ts:40-43). -/
def AppState.init : AppState := {}

/-- Fire every pending-correlation timer whose deadline has been reached
by instant `t`: its `setTimeout` callback deletes the entry and reports
the buffered event (main.ts:297-300). Returns the surviving entries and
the emitted reports, each stamped with its deadline. -/
def fireDueGo (t : Nat) : List Pending → List Pending × List (Nat × SlainMatch)
  | [] => ([], [])
  | (k, m, d) :: rest =>
    let (ps, rs) := fireDueGo t rest
    if d ≤ t then (ps, (d, m) :: rs) else ((k, m, d) :: ps, rs)

/-- Advance the correlator clock to instant `t`, firing due timers. -/
def fireDue (t : Nat) (st : AppState) : AppState :=
  let (ps, rs) := fireDueGo t st.pending
  { st with pending := ps, reports := st.reports ++ rs }

/-- `clearTimeout` + `pendingNonPvp.delete(key)`: remove the pending
entry for `key`. -/
def removeKey (key : String) : List Pending → List Pending
  | [] => []
  | (k, m, d) :: rest =>
    if k = key then removeKey key rest else (k, m, d) :: removeKey key rest

/-- Handle one parsed kill event at instant `t` (main.ts:280-302):
compute the dedup key; a PVP event cancels any buffered non-PVP entry for
the key and is reported immediately; a non-PVP event cancels any existing
timer for the key and installs a fresh entry with deadline
`t + BUFFER_MS`. -/
def handleKill (t : Nat) (m : SlainMatch) (st : AppState) : AppState :=
  let key := normalizeForDedup m.npcName
  if m.pvp = 1 then
    { st with pending := removeKey key st.pending,
              reports := st.reports ++ [(t, m)] }
  else
    { st with pending := removeKey key st.pending ++ [(key, m, t + BUFFER_MS)] }

/-- Run a time-ordered trace of kill events through the correlator,
firing due timers before each arrival. -/
def runTrace : List (Nat × SlainMatch) → AppState → AppState
  | [], st => st
  | (t, m) :: rest, st => runTrace rest (handleKill t m (fireDue t st))

/-- Let every remaining timer elapse without further input: each pending
entry is reported at its deadline. -/
def flushPending (st : AppState) : AppState :=
  { st with pending := [],
            reports := st.reports ++ st.pending.map (fun e => (e.2.2, e.2.1)) }

/-! ## A backtracking regex engine for the source patterns

The four kill-line patterns and the earthquake pattern of parser.ts use
only these constructs: literal text, single-character classes (`.`,
`\s`, `\d`, `[.!]`), lazy one-or-more of a class (`.+?`), greedy
one-or-more / zero-or-more of a class (`\s+`, `\s*`, `\d+`), greedy
option (`(?:...)?`, `!?`, `s?`), named or numbered capture groups, and
the `$` end anchor.  `M` is a continuation-passing backtracking matcher
returning the first success in JavaScript preference order (lazy tries
fewest repetitions first, greedy tries most first, an option tries its
body before skipping it), and `search` scans start positions left to
right like `String.prototype.match` with a non-global regex. -/

/-- Regex abstract syntax, restricted to the constructs the source uses. -/
inductive RE where
  | eps
  | lit (s : List Char)
  | cls (p : Char → Bool)
  | seq (a b : RE)
  | opt (a : RE)
  | plusL (p : Char → Bool)
  | plusG (p : Char → Bool)
  | starG (p : Char → Bool)
  | group (name : String) (a : RE)
  | endAnchor

/-- Sequence a list of regexes. -/
def reCat : List RE → RE
  | [] => RE.eps
  | r :: rs => RE.seq r (reCat rs)

/-- Captured groups: group name to captured text. -/
abbrev Caps := List (String × List Char)

/-- Match a literal against the head of the input, returning the rest. -/
def stripPre : List Char → List Char → Option (List Char)
  | [], inp => some inp
  | _ :: _, [] => none
  | a :: s, b :: inp => if a == b then stripPre s inp else none

/-- Lazy zero-or-more repetition of a class: try the continuation first,
then consume another class character. -/
def lazyMore (p : Char → Bool) (inp : List Char) (caps : Caps)
    (k : List Char → Caps → Option Caps) : Option Caps :=
  (k inp caps) <|>
    (match inp with
     | c :: rest => if p c then lazyMore p rest caps k else none
     | [] => none)

/-- Greedy zero-or-more repetition of a class: try consuming another
class character first, then the continuation. -/
def greedyMore (p : Char → Bool) (inp : List Char) (caps : Caps)
    (k : List Char → Caps → Option Caps) : Option Caps :=
  (match inp with
   | c :: rest => if p c then greedyMore p rest caps k else none
   | [] => none) <|>
    (k inp caps)

/-- The matcher: `M r inp caps k` matches `r` at the start of `inp` and
passes the remaining input and updated captures to `k`, backtracking in
JavaScript preference order. -/
def M : RE → List Char → Caps → (List Char → Caps → Option Caps) → Option Caps
  | RE.eps, inp, caps, k => k inp caps
  | RE.lit s, inp, caps, k =>
    match stripPre s inp with
    | some rest => k rest caps
    | none => none
  | RE.cls p, inp, caps, k =>
    match inp with
    | c :: rest => if p c then k rest caps else none
    | [] => none
  | RE.seq a b, inp, caps, k => M a inp caps (fun rest caps1 => M b rest caps1 k)
  | RE.opt a, inp, caps, k => (M a inp caps k) <|> (k inp caps)
  | RE.plusL p, inp, caps, k =>
    match inp with
    | c :: rest => if p c then lazyMore p rest caps k else none
    | [] => none
  | RE.plusG p, inp, caps, k =>
    match inp with
    | c :: rest => if p c then greedyMore p rest caps k else none
    | [] => none
  | RE.starG p, inp, caps, k => greedyMore p inp caps k
  | RE.group n a, inp, caps, k =>
    M a inp caps (fun rest caps1 => k rest ((n, inp.take (inp.length - rest.length)) :: caps1))
  | RE.endAnchor, inp, caps, k =>
    match inp with
    | [] => k [] caps
    | _ :: _ => none

/-- Leftmost-match scan: try each start position from the left, as
`String.prototype.match` does for a non-global regex. -/
def search (r : RE) : List Char → Option Caps
  | [] => M r [] [] (fun _ caps => some caps)
  | c :: rest =>
    match M r (c :: rest) [] (fun _ caps => some caps) with
    | some caps => some caps
    | none => search r rest

/-! ## The source patterns (parser.ts:28-49, 67, 81, 103) -/

/-- `(?<g>.+?)` — a named lazy-dot-plus capture. -/
def gLazyDot (g : String) : RE := RE.group g (RE.plusL isDotB)

/-- The parts of `pvpRegex` before the trailing `!$`:
`\[PVP\]\s+(?<player>.+?)(?:\s+of\s+<(?<guild>.+?)>)?\s+has killed\s+(?<npc>.+?)(?:\s+in\s+(?<zone>.+?))?`. -/
def pvpParts : List RE :=
  [RE.lit "[PVP]".data, RE.plusG isWsB, gLazyDot "player",
   RE.opt (reCat [RE.plusG isWsB, RE.lit "of".data, RE.plusG isWsB,
                  RE.lit "<".data, gLazyDot "guild", RE.lit ">".data]),
   RE.plusG isWsB, RE.lit "has killed".data, RE.plusG isWsB, gLazyDot "npc",
   RE.opt (reCat [RE.plusG isWsB, RE.lit "in".data, RE.plusG isWsB, gLazyDot "zone"])]

/-- `pvpRegex` (parser.ts:28-29). -/
def pvpRE : RE := reCat (pvpParts ++ [RE.lit "!".data, RE.endAnchor])

/-- The parts of `guildRegex` before the trailing `!'`:
`.+?\s+tells the guild,\s+'(?<killer>.+?)\s+of\s+<(?<guild>.+?)>\s+has killed\s+(?<npc>.+?)(?:\s+in\s+(?<zone>.+?))?`. -/
def guildParts : List RE :=
  [RE.plusL isDotB, RE.plusG isWsB, RE.lit "tells the guild,".data, RE.plusG isWsB,
   RE.lit "'".data, gLazyDot "killer", RE.plusG isWsB, RE.lit "of".data,
   RE.plusG isWsB, RE.lit "<".data, gLazyDot "guild", RE.lit ">".data,
   RE.plusG isWsB, RE.lit "has killed".data, RE.plusG isWsB, gLazyDot "npc",
   RE.opt (reCat [RE.plusG isWsB, RE.lit "in".data, RE.plusG isWsB, gLazyDot "zone"])]

/-- `guildRegex` (parser.ts:48-49); note there is no `$` anchor. -/
def guildRE : RE := reCat (guildParts ++ [RE.lit "!'".data])

/-- `slainByRegex` (parser.ts:67):
`(?<npc>.+?)\s+has been slain by\s+(?<killer>.+?)!?\s*$` — the `!` is optional. -/
def slainByRE : RE :=
  reCat [gLazyDot "npc", RE.plusG isWsB, RE.lit "has been slain by".data,
         RE.plusG isWsB, gLazyDot "killer", RE.opt (RE.lit "!".data),
         RE.starG isWsB, RE.endAnchor]

/-- `slainRegex` (parser.ts:81): `You have slain\s+(?<npc>.+?)[.!]?\s*$`. -/
def slainRE : RE :=
  reCat [RE.lit "You have slain".data, RE.plusG isWsB, gLazyDot "npc",
         RE.opt (RE.cls (fun c => c == '.' || c == '!')), RE.starG isWsB, RE.endAnchor]

/-- The earthquake pattern (parser.ts:103), with literals lowercased —
the `/i` flag is embedded by lowercasing both pattern and input:
`The next earthquake will begin in (?:(\d+) Days?,\s*)?(?:(\d+) Hours?,\s*)?(?:(\d+) Minutes?,\s*)?(?:and\s+)?(\d+) Seconds?`. -/
def earthquakeRE : RE :=
  reCat [RE.lit "the next earthquake will begin in ".data,
         RE.opt (reCat [RE.group "1" (RE.plusG isDigitB), RE.lit " day".data,
                        RE.opt (RE.lit "s".data), RE.lit ",".data, RE.starG isWsB]),
         RE.opt (reCat [RE.group "2" (RE.plusG isDigitB), RE.lit " hour".data,
                        RE.opt (RE.lit "s".data), RE.lit ",".data, RE.starG isWsB]),
         RE.opt (reCat [RE.group "3" (RE.plusG isDigitB), RE.lit " minute".data,
                        RE.opt (RE.lit "s".data), RE.lit ",".data, RE.starG isWsB]),
         RE.opt (reCat [RE.lit "and".data, RE.plusG isWsB]),
         RE.group "4" (RE.plusG isDigitB), RE.lit " second".data,
         RE.opt (RE.lit "s".data)]

/-! ## `parseSlainLine` and `parseEarthquakeLine` (parser.ts:25-113) -/

/-- An optional captured field: `groups.x?.trim()` spread into the result
only when truthy (present and nonempty after trimming). -/
def optField (o : Option (List Char)) : Option String :=
  match o with
  | none => none
  | some x => let t := trimWs x; if t.isEmpty then none else some ⟨t⟩

/-- The PVP branch of `parseSlainLine` (parser.ts:28-44): the guard is
the truthiness of the raw `npc` capture; `npcName` is its trim. -/
def tryPvp (l : List Char) : Option SlainMatch :=
  match search pvpRE l with
  | none => none
  | some caps =>
    match caps.lookup "npc" with
    | none => none
    | some npcRaw =>
      if npcRaw.isEmpty then none
      else some { npcName := ⟨trimWs npcRaw⟩, zone := optField (caps.lookup "zone"),
                  pvp := 1, playerName := optField (caps.lookup "player"),
                  guildName := optField (caps.lookup "guild") }

/-- The guild-relay branch of `parseSlainLine` (parser.ts:48-64); not PVP. -/
def tryGuild (l : List Char) : Option SlainMatch :=
  match search guildRE l with
  | none => none
  | some caps =>
    match caps.lookup "npc" with
    | none => none
    | some npcRaw =>
      if npcRaw.isEmpty then none
      else some { npcName := ⟨trimWs npcRaw⟩, zone := optField (caps.lookup "zone"),
                  pvp := 0, playerName := optField (caps.lookup "killer"),
                  guildName := optField (caps.lookup "guild") }

/-- The third-person slain-by branch of `parseSlainLine` (parser.ts:67-78). -/
def trySlainBy (l : List Char) : Option SlainMatch :=
  match search slainByRE l with
  | none => none
  | some caps =>
    match caps.lookup "npc" with
    | none => none
    | some npcRaw =>
      if npcRaw.isEmpty then none
      else some { npcName := ⟨trimWs npcRaw⟩, zone := none, pvp := 0,
                  playerName := optField (caps.lookup "killer"), guildName := none }

/-- The first-person slain branch of `parseSlainLine` (parser.ts:81-90). -/
def trySlain (l : List Char) : Option SlainMatch :=
  match search slainRE l with
  | none => none
  | some caps =>
    match caps.lookup "npc" with
    | none => none
    | some npcRaw =>
      if npcRaw.isEmpty then none
      else some { npcName := ⟨trimWs npcRaw⟩, zone := none, pvp := 0,
                  playerName := none, guildName := none }

/-- `parseSlainLine` (parser.ts:25-93): the four patterns in precedence
order, first match wins. -/
def parseSlainLine (line : String) : Option SlainMatch :=
  match tryPvp line.data with
  | some e => some e
  | none =>
    match tryGuild line.data with
    | some e => some e
    | none =>
      match trySlainBy line.data with
      | some e => some e
      | none => trySlain line.data

/-- `parseInt(digits, 10)` on a captured digit run. -/
def digitsToNat (l : List Char) : Nat :=
  l.foldl (fun n c => n * 10 + (c.toNat - '0'.toNat)) 0

/-- `parseEarthquakeLine` (parser.ts:102-113); the `/i` flag is embedded
by lowercasing the input (the captures are digit runs, unaffected). -/
def parseEarthquakeLine (line : String) : Option EarthquakeMatch :=
  match search earthquakeRE (line.data.map Char.toLower) with
  | none => none
  | some caps =>
    some { days := ((caps.lookup "1").map digitsToNat).getD 0,
           hours := ((caps.lookup "2").map digitsToNat).getD 0,
           minutes := ((caps.lookup "3").map digitsToNat).getD 0,
           seconds := ((caps.lookup "4").map digitsToNat).getD 0 }

/-- The per-line dispatch of the polling loop (main.ts:266-303):
earthquake parse first; on a match the kill parse is never consulted. -/
inductive LineAction where
  | earthquake (m : EarthquakeMatch)
  | kill (m : SlainMatch)
  | skip
deriving DecidableEq, Repr

/-- One line through the dispatch order of the tick body. -/
def processLine (line : String) : LineAction :=
  match parseEarthquakeLine line with
  | some m => LineAction.earthquake m
  | none =>
    match parseSlainLine line with
    | some m => LineAction.kill m
    | none => LineAction.skip

/-! ## Session lifecycle, tail cursor and report outcomes (main.ts:75-263) -/

/-- The settings record consumed by `startWatching`. -/
structure Settings where
  serverUrl : String
  apiKey : String
  logPath : String
deriving DecidableEq, Repr

/-- The outcome of one `fetch` call: a response with an HTTP status, or a
thrown transport error (which also covers the 8-second abort). -/
inductive FetchOutcome where
  | resp (status : Nat)
  | threw
deriving DecidableEq, Repr

/-- `res.ok`: HTTP status in the 2xx range. -/
def respOk (status : Nat) : Bool := 200 ≤ status && status < 300

/-- The environment a `startWatching` call runs against: the result of
`fs.statSync` on the trimmed log path (`none` when it throws) and the
outcomes of the preflight health and credential-check fetches. -/
structure StartEnv where
  statSize : Option Nat
  health : FetchOutcome
  keyCheck : FetchOutcome
deriving DecidableEq, Repr

/-- `stopWatching` (main.ts:75-86): cancel the polling interval, clear
every pending-correlation timer and the map, clear the watched path, and
signal `stopped`.  `logPosition` is not touched. -/
def stopWatching (st : AppState) : AppState × List ConnStatus :=
  ({ st with watcherTimer := none, pending := [], logPath := none },
   [ConnStatus.stopped])

/-- `String.prototype.trim` on a `String`. -/
def trimStr (s : String) : String := ⟨trimWs s.data⟩

/-- `startWatching` (main.ts:172-310): tear down any previous session,
then run the preflight steps in source order — empty-config check, stat
of the log file (setting `logPosition` to its size), health check with
the 8-second abort folded into `FetchOutcome.threw`, credential check —
stopping at the first failure with its status signal; on success record
the watched path, signal `connected`, and arm the 1000 ms polling
interval. -/
def startWatching (settings : Settings) (env : StartEnv) (st : AppState) :
    AppState × List ConnStatus :=
  let (st1, sigs) := stopWatching st
  if (trimStr settings.serverUrl).isEmpty || (trimStr settings.apiKey).isEmpty ||
      (trimStr settings.logPath).isEmpty then
    (st1, sigs ++ [ConnStatus.missing_config])
  else
    match env.statSize with
    | none => (st1, sigs ++ [ConnStatus.file_not_found])
    | some size =>
      let st2 := { st1 with logPosition := size }
      match env.health with
      | FetchOutcome.threw => (st2, sigs ++ [ConnStatus.server_offline])
      | FetchOutcome.resp hs =>
        if !respOk hs then (st2, sigs ++ [ConnStatus.server_offline])
        else
          match env.keyCheck with
          | FetchOutcome.threw => (st2, sigs ++ [ConnStatus.error])
          | FetchOutcome.resp ks =>
            if ks = 401 then (st2, sigs ++ [ConnStatus.invalid_key])
            else if !respOk ks then (st2, sigs ++ [ConnStatus.error])
            else
              ({ st2 with logPath := some (trimStr settings.logPath),
                          watcherTimer := some 1000 },
               sigs ++ [ConnStatus.connected])

/-- The stat/read/advance portion of one polling tick (main.ts:249-263):
when a path is being watched and the statted size exceeds the cursor,
read exactly the byte range `[logPosition, size)` and advance the cursor
to `size`; otherwise do nothing.  Returns the byte ranges read. -/
def tickRead (size : Nat) (st : AppState) : AppState × List (Nat × Nat) :=
  match st.logPath with
  | none => (st, [])
  | some _ =>
    if st.logPosition < size then
      ({ st with logPosition := size }, [(st.logPosition, size)])
    else
      (st, [])

/-- A sequence of polling ticks against the statted sizes. -/
def runTicks : List Nat → AppState → AppState × List (Nat × Nat)
  | [], st => (st, [])
  | size :: rest, st =>
    let (st1, rs) := tickRead size st
    let (st2, rs1) := runTicks rest st1
    (st2, rs ++ rs1)

/-- `rangeChain c rs c2`: the half-open byte ranges `rs` are nonempty,
consecutive and gap-free, starting at cursor `c` and ending at cursor
`c2` — no byte below the cursor is re-read and no byte between the
cursor and the last read is skipped. -/
def rangeChain : Nat → List (Nat × Nat) → Nat → Prop
  | c, [], c2 => c = c2
  | c, (a, b) :: rs, c2 => a = c ∧ c < b ∧ rangeChain b rs c2

/-- The shared response-to-status mapping of `reportSlain` and
`reportEarthquake` (main.ts:115-129, 154-168): 401 signals
`invalid_key`, any other 2xx signals `connected`, any other status or a
thrown transport error signals `error`. -/
def statusOfResponse (r : FetchOutcome) : ConnStatus :=
  match r with
  | FetchOutcome.threw => ConnStatus.error
  | FetchOutcome.resp s =>
    if s = 401 then ConnStatus.invalid_key
    else if respOk s then ConnStatus.connected
    else ConnStatus.error

/-- The JSON body of `POST /api/slain` (main.ts:91-98): optional fields
are spread in only when truthy (present, and for strings nonempty). -/
structure SlainBody where
  npcName : String
  zone : Option String
  pvp : Nat
  playerName : Option String
  guildName : Option String
deriving DecidableEq, Repr

/-- `...(x ? { x } : {})` for an optional string field of the payload. -/
def truthyField (o : Option String) : Option String :=
  match o with
  | none => none
  | some s => if s.isEmpty then none else some s

/-- `reportSlain` (main.ts:88-131): build the payload, perform the POST
(outcome `r`), and signal the mapped status.  It touches none of the
session state — no timer, pending entry, path or cursor changes. -/
def reportSlain (st : AppState) (m : SlainMatch) (r : FetchOutcome) :
    AppState × SlainBody × ConnStatus :=
  (st,
   { npcName := m.npcName, zone := truthyField m.zone, pvp := m.pvp,
     playerName := truthyField m.playerName, guildName := truthyField m.guildName },
   statusOfResponse r)

/-- The JSON body of `POST /api/earthquake` (main.ts:136-139). -/
structure EarthquakeBody where
  logLine : String
  timezone : String
deriving DecidableEq, Repr

/-- `reportEarthquake` (main.ts:133-170): same status mapping, fixed
literal timezone, no session-state changes. -/
def reportEarthquake (st : AppState) (logLine : String) (r : FetchOutcome) :
    AppState × EarthquakeBody × ConnStatus :=
  (st, { logLine := logLine, timezone := "GMT-0500" }, statusOfResponse r)

/-! ## Claim C1: a PVP event within the window supersedes the buffered non-PVP event -/

/-- C1: if a non-PVP kill event is buffered at `t1` and a PVP kill event
with the same correlation key is processed at `t2` before the buffered
entry's `BUFFER_MS` timer fires, exactly one report is sent — the PVP
event, at `t2` — and the buffered non-PVP event is cancelled and never
reported, even after all remaining timers elapse. -/
theorem claim1_pvp_supersedes (m1 m2 : SlainMatch) (t1 t2 : Nat)
    (h1 : m1.pvp = 0) (h2 : m2.pvp = 1)
    (hkey : normalizeForDedup m1.npcName = normalizeForDedup m2.npcName)
    (hle : t1 ≤ t2) (hlt : t2 < t1 + BUFFER_MS) :
    (flushPending (runTrace [(t1, m1), (t2, m2)] AppState.init)).reports = [(t2, m2)] := by
  simp only [BUFFER_MS] at hlt
  have hd : ¬ (t1 + 2000 ≤ t2) := by omega
  simp [runTrace, fireDue, fireDueGo, handleKill, removeKey, flushPending,
    AppState.init, BUFFER_MS, h1, h2, hkey, hd]

/-- C1 witness at a concrete trace. -/
theorem claim1_witness :
    (flushPending (runTrace
      [(1000, { npcName := "Grimrod", pvp := 0 }),
       (1500, { npcName := "Grimrod", pvp := 1, playerName := some "Aaeldar" })]
      AppState.init)).reports =
      [(1500, { npcName := "Grimrod", pvp := 1, playerName := some "Aaeldar" })] :=
  claim1_pvp_supersedes _ _ 1000 1500 rfl rfl rfl (by decide) (by decide)

/-! ## Claim C2: non-PVP buffering and supersession by a later non-PVP event -/

/-- C2: a non-PVP kill event with no same-key follower is reported
exactly once, with its original payload, when its timer fires at
`t1 + BUFFER_MS`; and when a second same-key non-PVP event arrives
before the first timer fires, the first entry's timer is cancelled (it
never fires independently) and only the second event's data is
reported, at `t2 + BUFFER_MS`. -/
theorem claim2_nonpvp_buffering :
    (∀ (m1 : SlainMatch) (t1 : Nat), m1.pvp = 0 →
      (flushPending (runTrace [(t1, m1)] AppState.init)).reports =
        [(t1 + BUFFER_MS, m1)]) ∧
    (∀ (m1 m2 : SlainMatch) (t1 t2 : Nat), m1.pvp = 0 → m2.pvp = 0 →
      normalizeForDedup m1.npcName = normalizeForDedup m2.npcName →
      t1 ≤ t2 → t2 < t1 + BUFFER_MS →
      (flushPending (runTrace [(t1, m1), (t2, m2)] AppState.init)).reports =
        [(t2 + BUFFER_MS, m2)]) := by
  constructor
  · intro m1 t1 h1
    simp [runTrace, fireDue, fireDueGo, handleKill, removeKey, flushPending,
      AppState.init, h1]
  · intro m1 m2 t1 t2 h1 h2 hkey hle hlt
    simp only [BUFFER_MS] at hlt
    have hd : ¬ (t1 + 2000 ≤ t2) := by omega
    simp [runTrace, fireDue, fireDueGo, handleKill, removeKey, flushPending,
      AppState.init, BUFFER_MS, h1, h2, hkey, hd]

/-- C2 witness: both conjuncts at concrete traces. -/
theorem claim2_witness :
    (flushPending (runTrace [(500, { npcName := "a rat", pvp := 0 })]
      AppState.init)).reports = [(2500, { npcName := "a rat", pvp := 0 })] ∧
    (flushPending (runTrace
      [(500, { npcName := "a rat", pvp := 0 }),
       (1500, { npcName := "a rat", zone := some "Qeynos", pvp := 0 })]
      AppState.init)).reports =
      [(3500, { npcName := "a rat", zone := some "Qeynos", pvp := 0 })] :=
  ⟨claim2_nonpvp_buffering.1 _ 500 rfl,
   claim2_nonpvp_buffering.2 _ _ 500 1500 rfl rfl rfl (by decide) (by decide)⟩

/-! ## Claim C5: preflight check order and status signals -/

/-- C5: `startWatching` runs its preflight checks in a fixed order and
stops at the first failure with exactly one outcome signal (after the
unconditional teardown's `stopped`): empty server URL, credential or
path yields `missing_config` before every other step (whatever the
environment would have answered); an unstatable log file yields
`file_not_found`; a health-check transport failure/timeout or non-2xx
response yields `server_offline`; a 401 on the credential check yields
`invalid_key` and any other credential-check failure yields `error`;
only when every check passes is `connected` signalled and the 1000 ms
polling interval armed, with the trimmed path recorded. -/
theorem claim5_preflight_order (settings : Settings) (env : StartEnv) (st : AppState) :
    (((trimStr settings.serverUrl).isEmpty || (trimStr settings.apiKey).isEmpty ||
        (trimStr settings.logPath).isEmpty) = true →
      (startWatching settings env st).2 = [ConnStatus.stopped, ConnStatus.missing_config] ∧
      (startWatching settings env st).1.watcherTimer = none) ∧
    (((trimStr settings.serverUrl).isEmpty || (trimStr settings.apiKey).isEmpty ||
        (trimStr settings.logPath).isEmpty) = false →
      env.statSize = none →
      (startWatching settings env st).2 = [ConnStatus.stopped, ConnStatus.file_not_found] ∧
      (startWatching settings env st).1.watcherTimer = none) ∧
    (∀ n, ((trimStr settings.serverUrl).isEmpty || (trimStr settings.apiKey).isEmpty ||
        (trimStr settings.logPath).isEmpty) = false →
      env.statSize = some n → env.health = FetchOutcome.threw →
      (startWatching settings env st).2 = [ConnStatus.stopped, ConnStatus.server_offline] ∧
      (startWatching settings env st).1.watcherTimer = none) ∧
    (∀ n hs, ((trimStr settings.serverUrl).isEmpty || (trimStr settings.apiKey).isEmpty ||
        (trimStr settings.logPath).isEmpty) = false →
      env.statSize = some n → env.health = FetchOutcome.resp hs → respOk hs = false →
      (startWatching settings env st).2 = [ConnStatus.stopped, ConnStatus.server_offline] ∧
      (startWatching settings env st).1.watcherTimer = none) ∧
    (∀ n hs, ((trimStr settings.serverUrl).isEmpty || (trimStr settings.apiKey).isEmpty ||
        (trimStr settings.logPath).isEmpty) = false →
      env.statSize = some n → env.health = FetchOutcome.resp hs → respOk hs = true →
      env.keyCheck = FetchOutcome.threw →
      (startWatching settings env st).2 = [ConnStatus.stopped, ConnStatus.error] ∧
      (startWatching settings env st).1.watcherTimer = none) ∧
    (∀ n hs, ((trimStr settings.serverUrl).isEmpty || (trimStr settings.apiKey).isEmpty ||
        (trimStr settings.logPath).isEmpty) = false →
      env.statSize = some n → env.health = FetchOutcome.resp hs → respOk hs = true →
      env.keyCheck = FetchOutcome.resp 401 →
      (startWatching settings env st).2 = [ConnStatus.stopped, ConnStatus.invalid_key] ∧
      (startWatching settings env st).1.watcherTimer = none) ∧
    (∀ n hs ks, ((trimStr settings.serverUrl).isEmpty || (trimStr settings.apiKey).isEmpty ||
        (trimStr settings.logPath).isEmpty) = false →
      env.statSize = some n → env.health = FetchOutcome.resp hs → respOk hs = true →
      env.keyCheck = FetchOutcome.resp ks → ks ≠ 401 → respOk ks = false →
      (startWatching settings env st).2 = [ConnStatus.stopped, ConnStatus.error] ∧
      (startWatching settings env st).1.watcherTimer = none) ∧
    (∀ n hs ks, ((trimStr settings.serverUrl).isEmpty || (trimStr settings.apiKey).isEmpty ||
        (trimStr settings.logPath).isEmpty) = false →
      env.statSize = some n → env.health = FetchOutcome.resp hs → respOk hs = true →
      env.keyCheck = FetchOutcome.resp ks → respOk ks = true →
      (startWatching settings env st).2 = [ConnStatus.stopped, ConnStatus.connected] ∧
      (startWatching settings env st).1.watcherTimer = some 1000 ∧
      (startWatching settings env st).1.logPath = some (trimStr settings.logPath)) := by
  refine ⟨?_, ?_, ?_, ?_, ?_, ?_, ?_, ?_⟩
  · intro hcfg
    simp [startWatching, stopWatching, hcfg]
  · intro hcfg hstat
    simp [startWatching, stopWatching, hcfg, hstat]
  · intro n hcfg hstat hh
    simp [startWatching, stopWatching, hcfg, hstat, hh]
  · intro n hs hcfg hstat hh hok
    simp [startWatching, stopWatching, hcfg, hstat, hh, hok]
  · intro n hs hcfg hstat hh hok hk
    simp [startWatching, stopWatching, hcfg, hstat, hh, hok, hk]
  · intro n hs hcfg hstat hh hok hk
    simp [startWatching, stopWatching, hcfg, hstat, hh, hok, hk]
  · intro n hs ks hcfg hstat hh hok hk hne hkok
    simp [startWatching, stopWatching, hcfg, hstat, hh, hok, hk, hne, hkok]
  · intro n hs ks hcfg hstat hh hok hk hkok
    have hne : ¬ (ks = 401) := by
      intro h
      rw [h] at hkok
      simp [respOk] at hkok
    simp [startWatching, stopWatching, hcfg, hstat, hh, hok, hk, hne, hkok]

/-- C5 witness: a fully successful preflight at concrete settings. -/
theorem claim5_witness :
    (startWatching { serverUrl := "http://x", apiKey := "k", logPath := "p" }
      { statSize := some 7, health := FetchOutcome.resp 200,
        keyCheck := FetchOutcome.resp 204 } AppState.init).2 =
      [ConnStatus.stopped, ConnStatus.connected] ∧
    (startWatching { serverUrl := "http://x", apiKey := "k", logPath := "p" }
      { statSize := some 7, health := FetchOutcome.resp 200,
        keyCheck := FetchOutcome.resp 204 } AppState.init).1.watcherTimer = some 1000 ∧
    (startWatching { serverUrl := "http://x", apiKey := "k", logPath := "p" }
      { statSize := some 7, health := FetchOutcome.resp 200,
        keyCheck := FetchOutcome.resp 204 } AppState.init).1.logPath = some (trimStr "p") :=
  (claim5_preflight_order _ _ _).2.2.2.2.2.2.2 7 200 204
    (by decide) rfl rfl (by decide) rfl (by decide)

/-! ## Claim C6: report outcome mapping, and 401 not cancelling the session -/

/-- C6: each report call maps its outcome to exactly one status signal —
2xx to `connected`, 401 to `invalid_key`, any other status or a
transport failure to `error` — and a steady-state 401 leaves the polling
interval, the pending correlation timers, the watched path and the
cursor untouched, for kill reports and earthquake reports alike. -/
theorem claim6_report_status_mapping :
    (∀ s, 200 ≤ s → s < 300 → statusOfResponse (FetchOutcome.resp s) = ConnStatus.connected) ∧
    (statusOfResponse (FetchOutcome.resp 401) = ConnStatus.invalid_key) ∧
    (statusOfResponse FetchOutcome.threw = ConnStatus.error) ∧
    (∀ s, s ≠ 401 → ¬ (200 ≤ s ∧ s < 300) →
      statusOfResponse (FetchOutcome.resp s) = ConnStatus.error) ∧
    (∀ st m r, (reportSlain st m r).2.2 = statusOfResponse r ∧
      (reportSlain st m r).1.watcherTimer = st.watcherTimer ∧
      (reportSlain st m r).1.pending = st.pending ∧
      (reportSlain st m r).1.logPath = st.logPath ∧
      (reportSlain st m r).1.logPosition = st.logPosition) ∧
    (∀ st line r, (reportEarthquake st line r).2.2 = statusOfResponse r ∧
      (reportEarthquake st line r).1.watcherTimer = st.watcherTimer ∧
      (reportEarthquake st line r).1.pending = st.pending ∧
      (reportEarthquake st line r).1.logPath = st.logPath ∧
      (reportEarthquake st line r).1.logPosition = st.logPosition) := by
  refine ⟨?_, rfl, rfl, ?_, ?_, ?_⟩
  · intro s h1 h2
    have hne : ¬ (s = 401) := by omega
    have hok : respOk s = true := by simp [respOk]; omega
    simp [statusOfResponse, hne, hok]
  · intro s hne hnot
    have hok : respOk s = false := by
      simp [respOk]
      omega
    simp [statusOfResponse, hne, hok]
  · intro st m r
    exact ⟨rfl, rfl, rfl, rfl, rfl⟩
  · intro st line r
    exact ⟨rfl, rfl, rfl, rfl, rfl⟩

/-- A concrete live session state for the C6 witness. -/
def exLiveState : AppState :=
  { AppState.init with
    watcherTimer := some 1000
    pending := [("a rat", { npcName := "a rat", pvp := 0 }, 3000)] }

/-- C6 witness: a steady-state 401 on a kill report signals
`invalid_key` and leaves a live session state untouched. -/
theorem claim6_witness :
    (reportSlain exLiveState { npcName := "a rat", pvp := 0 } (FetchOutcome.resp 401)).2.2 =
      statusOfResponse (FetchOutcome.resp 401) ∧
    (reportSlain exLiveState { npcName := "a rat", pvp := 0 } (FetchOutcome.resp 401)).1.watcherTimer =
      exLiveState.watcherTimer :=
  ⟨(claim6_report_status_mapping.2.2.2.2.1 exLiveState _ _).1,
   (claim6_report_status_mapping.2.2.2.2.1 exLiveState _ _).2.1⟩

/-! ## Claim C4: tail cursor discipline (corrected) -/

/-- A range chain starts no higher than it ends. -/
theorem rangeChain_le (rs : List (Nat × Nat)) :
    ∀ c c2, rangeChain c rs c2 → c ≤ c2 := by
  induction rs with
  | nil => intro c c2 h; exact Nat.le_of_eq h
  | cons r rs ih =>
    intro c c2 h
    obtain ⟨ha, hlt, hrest⟩ := h
    exact Nat.le_trans (Nat.le_of_lt hlt) (ih _ _ hrest)

/-- C4 counterexample to the claim as stated: stopping a watch does not
reset the cursor to zero — `stopWatching` leaves `logPosition` at its
last value (main.ts:75-86 never touches it). -/
theorem claim4_counterexample :
    (stopWatching { AppState.init with logPosition := 5 }).1.logPosition ≠ 0 := by
  decide

/-- C4 (amended): while watching, each polling tick reads exactly the
byte range from the cursor to the statted size and advances the cursor
there, so the read ranges chain without gap or overlap and the cursor is
monotonically non-decreasing; (re)starting a watch whose config is
non-empty and whose stat succeeds sets the cursor to the file's size at
that moment (never to zero); stopping a watch cancels the timer, clears
the pending map and the path, but leaves the cursor at its last value —
it is only re-initialized from the file size by the next start. -/
theorem claim4_tail_cursor :
    (∀ (sizes : List Nat) (st : AppState),
      rangeChain st.logPosition (runTicks sizes st).2 (runTicks sizes st).1.logPosition) ∧
    (∀ (sizes : List Nat) (st : AppState),
      st.logPosition ≤ (runTicks sizes st).1.logPosition) ∧
    (∀ (settings : Settings) (env : StartEnv) (st : AppState) (n : Nat),
      ((trimStr settings.serverUrl).isEmpty || (trimStr settings.apiKey).isEmpty ||
        (trimStr settings.logPath).isEmpty) = false →
      env.statSize = some n →
      (startWatching settings env st).1.logPosition = n) ∧
    (∀ st : AppState,
      (stopWatching st).1.logPosition = st.logPosition ∧
      (stopWatching st).1.logPath = none ∧
      (stopWatching st).1.watcherTimer = none ∧
      (stopWatching st).1.pending = []) := by
  have hchain : ∀ (sizes : List Nat) (st : AppState),
      rangeChain st.logPosition (runTicks sizes st).2 (runTicks sizes st).1.logPosition := by
    intro sizes
    induction sizes with
    | nil =>
      intro st
      simp [runTicks, rangeChain]
    | cons size rest ih =>
      intro st
      simp only [runTicks, tickRead]
      match hpath : st.logPath with
      | none =>
        simpa [runTicks, hpath] using ih st
      | some p =>
        by_cases hlt : st.logPosition < size
        · have h2 := ih { st with logPosition := size }
          simp only [hpath] at h2
          simp [hpath, hlt, rangeChain]
          simpa using h2
        · simpa [hpath, hlt] using ih st
  refine ⟨hchain, ?_, ?_, ?_⟩
  · intro sizes st
    exact rangeChain_le _ _ _ (hchain sizes st)
  · intro settings env st n hcfg hstat
    cases henv : env.health with
    | threw => simp [startWatching, stopWatching, hcfg, hstat, henv]
    | resp hs =>
      by_cases hok : respOk hs
      · cases hk : env.keyCheck with
        | threw => simp [startWatching, stopWatching, hcfg, hstat, henv, hok, hk]
        | resp ks =>
          by_cases h401 : ks = 401
          · simp [startWatching, stopWatching, hcfg, hstat, henv, hok, hk, h401]
          · by_cases hkok : respOk ks
            · simp [startWatching, stopWatching, hcfg, hstat, henv, hok, hk, h401, hkok]
            · simp [startWatching, stopWatching, hcfg, hstat, henv, hok, hk, h401, hkok]
      · simp [startWatching, stopWatching, hcfg, hstat, henv, hok]
  · intro st
    exact ⟨rfl, rfl, rfl, rfl⟩

/-- C4 witness: a concrete watched session reading two appended deltas,
then skipping a tick with no growth. -/
theorem claim4_witness :
    rangeChain 3
      (runTicks [7, 7, 12] { AppState.init with logPath := some "p", logPosition := 3 }).2
      (runTicks [7, 7, 12] { AppState.init with logPath := some "p", logPosition := 3 }).1.logPosition :=
  claim4_tail_cursor.1 [7, 7, 12] { AppState.init with logPath := some "p", logPosition := 3 }

/-! ## Claim C3: correlation-key derivation (corrected) -/

/-- `Char.toLower` is idempotent. -/
theorem toLower_toLower (c : Char) : Char.toLower (Char.toLower c) = Char.toLower c := by
  unfold Char.toLower
  by_cases h : c.toNat ≥ 65 ∧ c.toNat ≤ 90
  · rw [if_pos h]
    obtain ⟨h1, h2⟩ := h
    have h3 : c.toNat + 32 ≥ 97 := by omega
    have h4 : c.toNat + 32 ≤ 122 := by omega
    generalize c.toNat + 32 = n at h3 h4
    interval_cases n <;> decide
  · rw [if_neg h, if_neg h]

/-- `Char.toLower` only produces an underscore from an underscore. -/
theorem toLower_eq_underscore {c : Char} (h : Char.toLower c = '_') : c = '_' := by
  unfold Char.toLower at h
  by_cases hc : c.toNat ≥ 65 ∧ c.toNat ≤ 90
  · rw [if_pos hc] at h
    obtain ⟨h1, h2⟩ := hc
    exfalso
    have h3 : c.toNat + 32 ≥ 97 := by omega
    have h4 : c.toNat + 32 ≤ 122 := by omega
    generalize c.toNat + 32 = n at h3 h4 h
    interval_cases n <;> exact absurd h (by decide)
  · rwa [if_neg hc] at h

/-- The underscore replacement never leaves an underscore. -/
theorem uscToSpace_ne_underscore (c : Char) : uscToSpace c ≠ '_' := by
  by_cases h : c = '_'
  · subst h; decide
  · simp [uscToSpace, h]

/-- Lowercasing after underscore replacement never yields an underscore. -/
theorem toLower_usc_ne_underscore (c : Char) :
    Char.toLower (uscToSpace c) ≠ '_' := fun h =>
  uscToSpace_ne_underscore c (toLower_eq_underscore h)

/-- Members of a trimmed list are members of the original list. -/
theorem mem_trimWs {c : Char} {l : List Char} (h : c ∈ trimWs l) : c ∈ l := by
  unfold trimWs dropWs at h
  rw [List.mem_reverse] at h
  have h1 := (List.dropWhile_sublist isWsB).subset h
  rw [List.mem_reverse] at h1
  exact (List.dropWhile_sublist isWsB).subset h1

/-- Members of a collapsed list are the space or members of the input. -/
theorem mem_collapseGo {c : Char} :
    ∀ (l : List Char) (b : Bool), c ∈ collapseGo b l → c = ' ' ∨ c ∈ l := by
  intro l
  induction l with
  | nil => intro b h; simp [collapseGo] at h
  | cons a t ih =>
    intro b h
    by_cases hws : isWsB a
    · simp only [collapseGo, hws, if_true] at h
      rcases List.mem_append.mp h with h1 | h1
      · cases b with
        | true => simp at h1
        | false =>
          left
          simpa using h1
      · rcases ih true h1 with h2 | h2
        · exact Or.inl h2
        · exact Or.inr (List.mem_cons_of_mem a h2)
    · simp only [collapseGo, hws, if_false] at h
      rcases List.mem_cons.mp h with h1 | h1
      · exact Or.inr (h1 ▸ List.mem_cons_self a t)
      · rcases ih false h1 with h2 | h2
        · exact Or.inl h2
        · exact Or.inr (List.mem_cons_of_mem a h2)

/-- Dropping a leading hash run is the identity when the head is not a hash. -/
theorem dropWhile_hash_eq_self {l : List Char} (h : l.head? ≠ some '#') :
    l.dropWhile (fun c => c == '#') = l := by
  cases l with
  | nil => rfl
  | cons a t =>
    have ha : ¬ ((a == '#') = true) := by
      simp only [List.head?] at h
      simp only [beq_iff_eq]
      intro hc
      exact h (by rw [hc])
    exact List.dropWhile_cons_of_neg ha

/-- Mapping a pointwise-identity function is the identity. -/
theorem map_eq_self_of_forall {f : Char → Char} :
    ∀ {l : List Char}, (∀ c ∈ l, f c = c) → l.map f = l := by
  intro l
  induction l with
  | nil => intro _; rfl
  | cons a t ih =>
    intro h
    simp only [List.map_cons]
    rw [h a (List.mem_cons_self a t), ih (fun c hc => h c (List.mem_cons_of_mem a hc))]

/-- Dropping leading whitespace is the identity when the head is not whitespace. -/
theorem dropWhileWs_eq_self {l : List Char}
    (h : ∀ c, l.head? = some c → isWsB c = false) : l.dropWhile isWsB = l := by
  cases l with
  | nil => rfl
  | cons a t =>
    have ha : ¬ (isWsB a = true) := by
      rw [h a rfl]
      exact Bool.false_ne_true
    exact List.dropWhile_cons_of_neg ha

/-- Trimming is the identity on a list with non-whitespace ends. -/
theorem trimWs_eq_self {l : List Char}
    (hh : ∀ c, l.head? = some c → isWsB c = false)
    (hl : ∀ c, l.getLast? = some c → isWsB c = false) : trimWs l = l := by
  unfold trimWs dropWs
  rw [dropWhileWs_eq_self hh]
  rw [dropWhileWs_eq_self (by simpa using hl)]
  exact List.reverse_reverse l

/-- The head of a trimmed list is not whitespace. -/
theorem trimWs_head (l : List Char) :
    ∀ c, (trimWs l).head? = some c → isWsB c = false := by
  intro c hc
  unfold trimWs dropWs at hc
  rw [List.head?_reverse] at hc
  obtain ⟨t, ht⟩ := List.dropWhile_suffix (l := (l.dropWhile isWsB).reverse) isWsB
  have h2 : ((l.dropWhile isWsB).reverse).getLast? = some c := by
    rw [← ht, List.getLast?_append, hc]
    rfl
  rw [List.getLast?_reverse] at h2
  have h3 := List.head?_dropWhile_not isWsB l
  rw [h2] at h3
  exact h3

/-- The last element of a trimmed list is not whitespace. -/
theorem trimWs_last (l : List Char) :
    ∀ c, (trimWs l).getLast? = some c → isWsB c = false := by
  intro c hc
  unfold trimWs dropWs at hc
  rw [List.getLast?_reverse] at hc
  have := List.head?_dropWhile_not isWsB (l.dropWhile isWsB).reverse
  rw [hc] at this
  exact this

/-- Whitespace canonical form: every whitespace character is a single
space that is not followed by further whitespace (a trailing single
space is permitted by this predicate; trimming excludes it separately). -/
def wsCanon : List Char → Bool
  | [] => true
  | [c] => !isWsB c || c == ' '
  | c :: d :: rest => (!isWsB c || (c == ' ' && !isWsB d)) && wsCanon (d :: rest)

/-- The first character emitted by a collapse in swallowing mode is not
whitespace. -/
theorem collapseGo_true_head :
    ∀ (l : List Char) (c : Char), (collapseGo true l).head? = some c → isWsB c = false := by
  intro l
  induction l with
  | nil => intro c hc; simp [collapseGo] at hc
  | cons a t ih =>
    intro c hc
    by_cases hws : isWsB a
    · simp only [collapseGo, hws, if_true, List.nil_append] at hc
      exact ih c hc
    · simp only [collapseGo, hws, if_false, List.head?] at hc
      cases hc
      simpa using hws

/-- A collapse in swallowing mode only returns the empty list when every
input character is whitespace. -/
theorem collapseGo_true_eq_nil :
    ∀ (l : List Char), collapseGo true l = [] → ∀ c ∈ l, isWsB c = true := by
  intro l
  induction l with
  | nil => intro _ c hc; simp at hc
  | cons a t ih =>
    intro h c hc
    by_cases hws : isWsB a
    · simp only [collapseGo, hws, if_true, List.nil_append] at h
      rcases List.mem_cons.mp hc with h1 | h1
      · rw [h1]; exact hws
      · exact ih h c h1
    · simp only [collapseGo, hws, if_false] at h
      exact absurd h (List.cons_ne_nil a _)

/-- Unfolding equation for `collapseGo` on a cons cell. -/
theorem collapseGo_cons (b : Bool) (a : Char) (t : List Char) :
    collapseGo b (a :: t) =
      if isWsB a then (if b then [] else [' ']) ++ collapseGo true t
      else a :: collapseGo false t := rfl

/-- A collapse in emitting mode is nonempty on nonempty input. -/
theorem collapseGo_false_ne_nil (a : Char) (t : List Char) :
    collapseGo false (a :: t) ≠ [] := by
  rw [collapseGo_cons]
  by_cases hws : isWsB a
  · rw [if_pos hws]
    simp
  · rw [if_neg hws]
    exact List.cons_ne_nil a _

/-- Collapsing preserves a non-whitespace last element. -/
theorem collapseGo_last :
    ∀ (l : List Char) (b : Bool),
      (∀ c, l.getLast? = some c → isWsB c = false) →
      ∀ c, (collapseGo b l).getLast? = some c → isWsB c = false := by
  intro l
  induction l with
  | nil => intro b _ c hc; simp [collapseGo] at hc
  | cons a t ih =>
    intro b hlast c hc
    cases t with
    | nil =>
      have ha : isWsB a = false := hlast a rfl
      rw [collapseGo_cons, if_neg (by rw [ha]; exact Bool.false_ne_true)] at hc
      simp only [collapseGo, List.getLast?] at hc
      cases hc
      exact ha
    | cons d t2 =>
      have hlast2 : ∀ c, (d :: t2).getLast? = some c → isWsB c = false := by
        intro c2 hc2
        exact hlast c2 (by rw [List.getLast?_cons_cons, hc2])
      rw [collapseGo_cons] at hc
      by_cases hws : isWsB a
      · rw [if_pos hws] at hc
        have hKne : collapseGo true (d :: t2) ≠ [] := by
          intro hnil
          have hall := collapseGo_true_eq_nil (d :: t2) hnil
          obtain ⟨cl, hcl⟩ : ∃ cl, (d :: t2).getLast? = some cl := by
            cases hx : (d :: t2).getLast? with
            | none => exact absurd (List.getLast?_eq_none_iff.mp hx) (List.cons_ne_nil d t2)
            | some cl => exact ⟨cl, rfl⟩
          have hm := hall cl (List.mem_of_mem_getLast? (by rw [hcl]; rfl))
          rw [hlast2 cl hcl] at hm
          exact Bool.false_ne_true hm
        rw [List.getLast?_append] at hc
        cases hK : (collapseGo true (d :: t2)).getLast? with
        | none => exact absurd (List.getLast?_eq_none_iff.mp hK) hKne
        | some k =>
          rw [hK] at hc
          have h5 : (Option.some k).or ((if b = true then [] else [' ']).getLast?) = some k := rfl
          rw [h5] at hc
          cases hc
          exact ih true hlast2 _ hK
      · rw [if_neg hws, List.getLast?_cons] at hc
        have hKne : collapseGo false (d :: t2) ≠ [] := collapseGo_false_ne_nil d t2
        cases hK : (collapseGo false (d :: t2)).getLast? with
        | none => exact absurd (List.getLast?_eq_none_iff.mp hK) hKne
        | some k =>
          rw [hK] at hc
          simp only [Option.getD_some] at hc
          cases hc
          exact ih false hlast2 _ hK

/-- Collapsing always yields whitespace-canonical output. -/
theorem collapseGo_wsCanon :
    ∀ (l : List Char) (b : Bool), wsCanon (collapseGo b l) = true := by
  intro l
  induction l with
  | nil => intro b; rfl
  | cons a t ih =>
    intro b
    rw [collapseGo_cons]
    by_cases hws : isWsB a
    · rw [if_pos hws]
      cases b with
      | true => exact ih true
      | false =>
        cases hK : collapseGo true t with
        | nil => decide
        | cons k K2 =>
          have hk : isWsB k = false := collapseGo_true_head t k (by rw [hK]; rfl)
          have hcan : wsCanon (k :: K2) = true := by rw [← hK]; exact ih true
          show wsCanon (' ' :: k :: K2) = true
          simp [wsCanon, hk, hcan]
    · rw [if_neg hws]
      cases hK : collapseGo false t with
      | nil =>
        show wsCanon [a] = true
        simp [wsCanon, hws]
      | cons k K2 =>
        have hcan : wsCanon (k :: K2) = true := by rw [← hK]; exact ih false
        show wsCanon (a :: k :: K2) = true
        simp [wsCanon, hws, hcan]

/-- Collapsing is the identity on whitespace-canonical input. -/
theorem collapseGo_eq_self :
    ∀ (l : List Char), wsCanon l = true → collapseGo false l = l := by
  intro l
  induction l with
  | nil => intro _; rfl
  | cons a t ih =>
    intro h
    cases t with
    | nil =>
      by_cases hws : isWsB a
      · have ha : a = ' ' := by
          simp only [wsCanon, hws] at h
          simpa using h
        rw [collapseGo_cons, if_pos hws]
        rw [ha]
        rfl
      · rw [collapseGo_cons, if_neg hws]
        rfl
    | cons d t2 =>
      have h12 := h
      simp only [wsCanon, Bool.and_eq_true] at h12
      obtain ⟨h1, h2⟩ := h12
      have hcan2 : wsCanon (d :: t2) = true := h2
      by_cases hws : isWsB a
      · have ha : a = ' ' ∧ isWsB d = false := by
          rw [hws] at h1
          simpa using h1
        obtain ⟨ha1, ha2⟩ := ha
        have hd2 : ¬ (isWsB d = true) := by rw [ha2]; exact Bool.false_ne_true
        have htail := ih hcan2
        rw [collapseGo_cons false d t2, if_neg hd2] at htail
        have ht2 : collapseGo false t2 = t2 := by injection htail
        rw [collapseGo_cons, if_pos hws]
        rw [collapseGo_cons true d t2, if_neg hd2]
        rw [ht2, ha1]
        rfl
      · have htail := ih hcan2
        rw [collapseGo_cons, if_neg hws, htail]

/-- The head of an emit-mode collapse keeps a non-whitespace head. -/
theorem collapseGo_false_head (l : List Char)
    (h : ∀ c, l.head? = some c → isWsB c = false) :
    ∀ c, (collapseGo false l).head? = some c → isWsB c = false := by
  intro c hc
  cases l with
  | nil => simp [collapseGo] at hc
  | cons a t =>
    have ha := h a rfl
    rw [collapseGo_cons, if_neg (by rw [ha]; exact Bool.false_ne_true)] at hc
    cases hc
    exact ha

/-- The underscore replacement fixes every non-underscore character. -/
theorem uscToSpace_eq_self {c : Char} (h : c ≠ '_') : uscToSpace c = c := by
  simp [uscToSpace, h]

/-- One normalization pass is fixed by a second pass's step functions. -/
theorem normalize_fixed {N : List Char}
    (hhash : N.head? ≠ some '#')
    (husc : ∀ c ∈ N, uscToSpace c = c)
    (hlow : ∀ c ∈ N, Char.toLower c = c)
    (hhead : ∀ c, N.head? = some c → isWsB c = false)
    (hlast : ∀ c, N.getLast? = some c → isWsB c = false)
    (hcanon : wsCanon N = true) :
    collapseWs (trimWs (((N.dropWhile (fun c => c == '#')).map uscToSpace).map Char.toLower)) = N := by
  rw [dropWhile_hash_eq_self hhash, map_eq_self_of_forall husc, map_eq_self_of_forall hlow,
    trimWs_eq_self hhead hlast]
  exact collapseGo_eq_self N hcanon

/-- Every character of a normalization pass's output is fixed by the
underscore replacement. -/
theorem normOut_usc_fixed (Y : List Char) :
    ∀ c ∈ collapseGo false (trimWs ((Y.map uscToSpace).map Char.toLower)),
      uscToSpace c = c := by
  intro c hc
  rcases mem_collapseGo _ false hc with h1 | h1
  · rw [h1]; rfl
  · have h2 := mem_trimWs h1
    rw [List.mem_map] at h2
    obtain ⟨x, hx, hxc⟩ := h2
    rw [List.mem_map] at hx
    obtain ⟨y, _, hyx⟩ := hx
    apply uscToSpace_eq_self
    rw [← hxc, ← hyx]
    exact toLower_usc_ne_underscore y

/-- Every character of a normalization pass's output is fixed by
lowercasing. -/
theorem normOut_lower_fixed (Y : List Char) :
    ∀ c ∈ collapseGo false (trimWs ((Y.map uscToSpace).map Char.toLower)),
      Char.toLower c = c := by
  intro c hc
  rcases mem_collapseGo _ false hc with h1 | h1
  · rw [h1]; rfl
  · have h2 := mem_trimWs h1
    rw [List.mem_map] at h2
    obtain ⟨x, _, hxc⟩ := h2
    rw [← hxc]
    exact toLower_toLower x

/-- C3 counterexample to idempotence as stated: leading whitespace hides
a hash run from the first pass's hash stripping, but the trim exposes it
to the second pass — `normalizeForDedup " #a"` is `"#a"`, which
normalizes again to `"a"`. -/
theorem claim3_counterexample :
    normalizeForDedup (normalizeForDedup " #a") ≠ normalizeForDedup " #a" := by
  decide

/-- C3 (amended): `normalizeForDedup` strips a leading hash run, maps
underscores to spaces, lowercases, trims, and collapses whitespace runs
to single spaces; it is idempotent on every input whose normal form does
not begin with `'#'` (on other inputs a second pass strips the exposed
hash run), and the three spec examples share one key. -/
theorem claim3_normalize_key :
    (∀ s : String, (normalizeForDedup s).data.head? ≠ some '#' →
      normalizeForDedup (normalizeForDedup s) = normalizeForDedup s) ∧
    normalizeForDedup "##Grimrod_the_Destroyer" = normalizeForDedup "grimrod the destroyer" ∧
    normalizeForDedup "Grimrod   The   Destroyer" = normalizeForDedup "grimrod the destroyer" := by
  refine ⟨?_, by decide, by decide⟩
  intro s h
  have key := normalize_fixed (N := (normalizeForDedup s).data) h
    (normOut_usc_fixed (s.data.dropWhile (fun c => c == '#')))
    (normOut_lower_fixed (s.data.dropWhile (fun c => c == '#')))
    (collapseGo_false_head _ (trimWs_head _))
    (collapseGo_last _ false (trimWs_last _))
    (collapseGo_wsCanon _ false)
  have hrw : normalizeForDedup (normalizeForDedup s) =
      ⟨collapseWs (trimWs

        ((((normalizeForDedup s).data.dropWhile (fun c => c == '#')).map uscToSpace).map Char.toLower))⟩ := rfl
  rw [hrw, key]

/-- C3 witness: idempotence applied at a concrete name. -/
theorem claim3_witness :
    normalizeForDedup (normalizeForDedup "##Grimrod_the_Destroyer") =
      normalizeForDedup "##Grimrod_the_Destroyer" :=
  claim3_normalize_key.1 "##Grimrod_the_Destroyer" (by decide)

/-! ## Engine lemmas: what a successful match implies about the input -/

/-- Case analysis for a successful `Option` alternation. -/
theorem hOrElse_some {α : Type} {a b : Option α} {x : α} (h : (a <|> b) = some x) :
    a = some x ∨ (a = none ∧ b = some x) := by
  cases a with
  | none => exact Or.inr ⟨rfl, h⟩
  | some v => exact Or.inl h

/-- A stripped literal leaves a suffix of the input. -/
theorem stripPre_suffix :
    ∀ (s inp rest : List Char), stripPre s inp = some rest → rest <:+ inp := by
  intro s
  induction s with
  | nil =>
    intro inp rest h
    have h1 : inp = rest := Option.some.inj h
    simp [h1]
  | cons a s2 ih =>
    intro inp rest h
    cases inp with
    | nil => exact absurd h (by simp [stripPre])
    | cons b t =>
      rw [stripPre] at h
      by_cases hab : a == b
      · rw [if_pos hab] at h
        exact (ih t rest h).trans (List.suffix_cons b t)
      · rw [if_neg hab] at h
        exact absurd h (by simp)

/-- A stripped literal decomposes the input as literal plus rest. -/
theorem stripPre_append :
    ∀ (s inp rest : List Char), stripPre s inp = some rest → inp = s ++ rest := by
  intro s
  induction s with
  | nil =>
    intro inp rest h
    have h1 : inp = rest := Option.some.inj h
    simp [h1]
  | cons a s2 ih =>
    intro inp rest h
    cases inp with
    | nil => exact absurd h (by simp [stripPre])
    | cons b t =>
      rw [stripPre] at h
      by_cases hab : a == b
      · rw [if_pos hab] at h
        have hb : a = b := by simpa using hab
        rw [List.cons_append, ← hb, ih t rest h]
      · rw [if_neg hab] at h
        exact absurd h (by simp)

/-- Stripping a whole literal exactly means the input is the literal. -/
theorem stripPre_eq_nil {s inp : List Char} (h : stripPre s inp = some []) : inp = s := by
  have h2 := stripPre_append s inp [] h
  rw [h2, List.append_nil]

/-- A successful lazy repetition hands the continuation a suffix. -/
theorem lazyMore_suffix {p : Char → Bool} :
    ∀ {inp : List Char} {caps : Caps} {k : List Char → Caps → Option Caps} {res : Caps},
      lazyMore p inp caps k = some res →
      ∃ rest caps2, rest <:+ inp ∧ k rest caps2 = some res := by
  intro inp
  induction inp with
  | nil =>
    intro caps k res h
    rw [lazyMore] at h
    rcases hOrElse_some h with h1 | ⟨_, h1⟩
    · exact ⟨[], caps, List.suffix_refl [], h1⟩
    · exact absurd h1 (by simp)
  | cons c rest ih =>
    intro caps k res h
    rw [lazyMore] at h
    rcases hOrElse_some h with h1 | ⟨_, h1⟩
    · exact ⟨c :: rest, caps, List.suffix_refl _, h1⟩
    · by_cases hp : p c
      · rw [if_pos hp] at h1
        obtain ⟨r2, c2, hsuf, hk⟩ := ih h1
        exact ⟨r2, c2, hsuf.trans (List.suffix_cons c rest), hk⟩
      · rw [if_neg hp] at h1
        exact absurd h1 (by simp)

/-- A successful greedy repetition hands the continuation a suffix. -/
theorem greedyMore_suffix {p : Char → Bool} :
    ∀ {inp : List Char} {caps : Caps} {k : List Char → Caps → Option Caps} {res : Caps},
      greedyMore p inp caps k = some res →
      ∃ rest caps2, rest <:+ inp ∧ k rest caps2 = some res := by
  intro inp
  induction inp with
  | nil =>
    intro caps k res h
    rw [greedyMore] at h
    rcases hOrElse_some h with h1 | ⟨_, h1⟩
    · exact absurd h1 (by simp)
    · exact ⟨[], caps, List.suffix_refl [], h1⟩
  | cons c rest ih =>
    intro caps k res h
    rw [greedyMore] at h
    rcases hOrElse_some h with h1 | ⟨_, h1⟩
    · by_cases hp : p c
      · rw [if_pos hp] at h1
        obtain ⟨r2, c2, hsuf, hk⟩ := ih h1
        exact ⟨r2, c2, hsuf.trans (List.suffix_cons c rest), hk⟩
      · rw [if_neg hp] at h1
        exact absurd h1 (by simp)
    · exact ⟨c :: rest, caps, List.suffix_refl _, h1⟩

/-- A successful match hands the continuation a suffix of the input. -/
theorem M_suffix :
    ∀ (r : RE) {inp : List Char} {caps : Caps} {k : List Char → Caps → Option Caps} {res : Caps},
      M r inp caps k = some res →
      ∃ rest caps2, rest <:+ inp ∧ k rest caps2 = some res := by
  intro r
  induction r with
  | eps =>
    intro inp caps k res h
    exact ⟨inp, caps, List.suffix_refl _, h⟩
  | lit s =>
    intro inp caps k res h
    rw [M] at h
    cases hs : stripPre s inp with
    | none => rw [hs] at h; exact absurd h (by simp)
    | some rest =>
      rw [hs] at h
      exact ⟨rest, caps, stripPre_suffix s inp rest hs, h⟩
  | cls p =>
    intro inp caps k res h
    cases inp with
    | nil => exact absurd h (by simp [M])
    | cons c t =>
      rw [M] at h
      by_cases hp : p c
      · rw [if_pos hp] at h
        exact ⟨t, caps, List.suffix_cons c t, h⟩
      · rw [if_neg hp] at h
        exact absurd h (by simp)
  | seq a b iha ihb =>
    intro inp caps k res h
    rw [M] at h
    obtain ⟨r1, c1, hs1, h1⟩ := iha h
    obtain ⟨r2, c2, hs2, h2⟩ := ihb h1
    exact ⟨r2, c2, hs2.trans hs1, h2⟩
  | opt a iha =>
    intro inp caps k res h
    rw [M] at h
    rcases hOrElse_some h with h1 | ⟨_, h1⟩
    · exact iha h1
    · exact ⟨inp, caps, List.suffix_refl _, h1⟩
  | plusL p =>
    intro inp caps k res h
    cases inp with
    | nil => exact absurd h (by simp [M])
    | cons c t =>
      rw [M] at h
      by_cases hp : p c
      · rw [if_pos hp] at h
        obtain ⟨r2, c2, hs2, h2⟩ := lazyMore_suffix h
        exact ⟨r2, c2, hs2.trans (List.suffix_cons c t), h2⟩
      · rw [if_neg hp] at h
        exact absurd h (by simp)
  | plusG p =>
    intro inp caps k res h
    cases inp with
    | nil => exact absurd h (by simp [M])
    | cons c t =>
      rw [M] at h
      by_cases hp : p c
      · rw [if_pos hp] at h
        obtain ⟨r2, c2, hs2, h2⟩ := greedyMore_suffix h
        exact ⟨r2, c2, hs2.trans (List.suffix_cons c t), h2⟩
      · rw [if_neg hp] at h
        exact absurd h (by simp)
  | starG p =>
    intro inp caps k res h
    rw [M] at h
    exact greedyMore_suffix h
  | group n a iha =>
    intro inp caps k res h
    rw [M] at h
    obtain ⟨r1, c1, hs1, h1⟩ := iha h
    exact ⟨r1, (n, inp.take (inp.length - r1.length)) :: c1, hs1, h1⟩
  | endAnchor =>
    intro inp caps k res h
    cases inp with
    | nil => exact ⟨[], caps, List.suffix_refl _, h⟩
    | cons c t => exact absurd h (by simp [M])

/-- A match of a catenation ending in `lit t, endAnchor` forces the whole
input to end with `t`. -/
theorem reCat_lit_end_suffix {t : List Char} :
    ∀ (rs : List RE) {inp : List Char} {caps : Caps}
      {k : List Char → Caps → Option Caps} {res : Caps},
      M (reCat (rs ++ [RE.lit t, RE.endAnchor])) inp caps k = some res →
      t <:+ inp := by
  intro rs
  induction rs with
  | nil =>
    intro inp caps k res h
    rw [List.nil_append, reCat, reCat, reCat, M] at h
    cases hs : stripPre t inp with
    | none => rw [M, hs] at h; exact absurd h (by simp)
    | some rest =>
      rw [M, hs] at h
      cases rest with
      | nil => exact ⟨[], by rw [stripPre_eq_nil hs]; simp⟩
      | cons c t2 => simp [M] at h
  | cons r rs2 ih =>
    intro inp caps k res h
    rw [List.cons_append, reCat, M] at h
    obtain ⟨r1, c1, hs1, h1⟩ := M_suffix r h
    exact (ih h1).trans hs1

/-- A match of a catenation ending in a bare `lit t` forces `t` to occur
in the input. -/
theorem reCat_lit_tail_occurs {t : List Char} :
    ∀ (rs : List RE) {inp : List Char} {caps : Caps}
      {k : List Char → Caps → Option Caps} {res : Caps},
      M (reCat (rs ++ [RE.lit t])) inp caps k = some res →
      t <:+: inp := by
  intro rs
  induction rs with
  | nil =>
    intro inp caps k res h
    rw [List.nil_append, reCat, reCat, M] at h
    cases hs : stripPre t inp with
    | none => rw [M, hs] at h; exact absurd h (by simp)
    | some rest =>
      exact ⟨[], rest, by rw [List.nil_append]; exact (stripPre_append t inp rest hs).symm⟩
  | cons r rs2 ih =>
    intro inp caps k res h
    rw [List.cons_append, reCat, M] at h
    obtain ⟨r1, c1, hs1, h1⟩ := M_suffix r h
    obtain ⟨pre, post, hsplit⟩ := ih h1
    obtain ⟨t0, ht0⟩ := hs1
    exact ⟨t0 ++ pre, post, by rw [← ht0, ← hsplit]; simp [List.append_assoc]⟩

/-- A successful scan succeeds on some suffix of the input. -/
theorem search_suffix (r : RE) :
    ∀ (inp : List Char) (caps : Caps), search r inp = some caps →
      ∃ sub, sub <:+ inp ∧ M r sub [] (fun _ c => some c) = some caps := by
  intro inp
  induction inp with
  | nil =>
    intro caps h
    rw [search] at h
    exact ⟨[], List.suffix_refl [], h⟩
  | cons a t ih =>
    intro caps h
    rw [search] at h
    cases hm : M r (a :: t) [] (fun _ c => some c) with
    | none =>
      rw [hm] at h
      obtain ⟨sub, hsub, hM⟩ := ih caps h
      exact ⟨sub, hsub.trans (List.suffix_cons a t), hM⟩
    | some c2 =>
      rw [hm] at h
      exact ⟨a :: t, List.suffix_refl _, by rw [hm]; exact h⟩

/-! ## Claim C7: trailing punctuation per pattern (corrected) -/

/-- A list with `"!"` as suffix has `'!'` as last character. -/
theorem suffix_bang_getLast {l : List Char} (h : "!".data <:+ l) :
    l.getLast? = some '!' := by
  obtain ⟨t, ht⟩ := h
  rw [← ht]
  show (t ++ ['!']).getLast? = some '!'
  simp

/-- A successful PVP branch means the PVP pattern matched somewhere. -/
theorem tryPvp_search {l : List Char} {e : SlainMatch} (h : tryPvp l = some e) :
    ∃ caps, search pvpRE l = some caps := by
  unfold tryPvp at h
  cases hs : search pvpRE l with
  | none => simp only [hs] at h; exact absurd h (by simp)
  | some caps => exact ⟨caps, rfl⟩

/-- The guild branch only builds non-PVP events. -/
theorem tryGuild_pvp {l : List Char} {e : SlainMatch} (h : tryGuild l = some e) :
    e.pvp = 0 := by
  unfold tryGuild at h
  cases hs : search guildRE l with
  | none => simp only [hs] at h; exact absurd h (by simp)
  | some caps =>
    simp only [hs] at h
    cases hl : caps.lookup "npc" with
    | none => simp only [hl] at h; exact absurd h (by simp)
    | some raw =>
      simp only [hl] at h
      by_cases he : raw.isEmpty
      · simp only [he, if_true] at h; exact absurd h (by simp)
      · simp only [he, if_false] at h
        rw [← Option.some.inj h]

/-- The slain-by branch only builds non-PVP events. -/
theorem trySlainBy_pvp {l : List Char} {e : SlainMatch} (h : trySlainBy l = some e) :
    e.pvp = 0 := by
  unfold trySlainBy at h
  cases hs : search slainByRE l with
  | none => simp only [hs] at h; exact absurd h (by simp)
  | some caps =>
    simp only [hs] at h
    cases hl : caps.lookup "npc" with
    | none => simp only [hl] at h; exact absurd h (by simp)
    | some raw =>
      simp only [hl] at h
      by_cases he : raw.isEmpty
      · simp only [he, if_true] at h; exact absurd h (by simp)
      · simp only [he, if_false] at h
        rw [← Option.some.inj h]

/-- The first-person branch only builds non-PVP events. -/
theorem trySlain_pvp {l : List Char} {e : SlainMatch} (h : trySlain l = some e) :
    e.pvp = 0 := by
  unfold trySlain at h
  cases hs : search slainRE l with
  | none => simp only [hs] at h; exact absurd h (by simp)
  | some caps =>
    simp only [hs] at h
    cases hl : caps.lookup "npc" with
    | none => simp only [hl] at h; exact absurd h (by simp)
    | some raw =>
      simp only [hl] at h
      by_cases he : raw.isEmpty
      · simp only [he, if_true] at h; exact absurd h (by simp)
      · simp only [he, if_false] at h
        rw [← Option.some.inj h]

/-- C7 counterexample to the claim as stated: a third-person slain-by
line without a trailing `'!'` still matches, because `slainByRegex`
makes the `'!'` optional (`!?` at parser.ts:67). -/
theorem claim7_counterexample :
    parseSlainLine "Grimrod has been slain by Aaeldar" ≠ none := by
  decide

/-- C7 (amended): the trailing `'!'` is anchored and required only for
pattern 1 (every PVP match ends in `'!'`) and pattern 2 (every guild
match contains `"!'"`); pattern 3 accepts an optional `'!'` before
optional trailing whitespace, and pattern 4 accepts an optional `'.'`
or `'!'`. -/
theorem claim7_trailing_punctuation :
    (∀ (line : String) (e : SlainMatch), parseSlainLine line = some e → e.pvp = 1 →
      line.data.getLast? = some '!') ∧
    (∀ (l : List Char) (caps : Caps), search guildRE l = some caps → "!'".data <:+: l) ∧
    parseSlainLine "Grimrod has been slain by Aaeldar" =
      some { npcName := "Grimrod", zone := none, pvp := 0,
             playerName := some "Aaeldar", guildName := none } ∧
    parseSlainLine "Grimrod has been slain by Aaeldar!" =
      some { npcName := "Grimrod", zone := none, pvp := 0,
             playerName := some "Aaeldar", guildName := none } ∧
    parseSlainLine "You have slain a rat" =
      some { npcName := "a rat", zone := none, pvp := 0,
             playerName := none, guildName := none } ∧
    parseSlainLine "You have slain a rat." =
      some { npcName := "a rat", zone := none, pvp := 0,
             playerName := none, guildName := none } := by
  refine ⟨?_, ?_, by decide, by decide, by decide, by decide⟩
  · intro line e h hp
    unfold parseSlainLine at h
    cases h1 : tryPvp line.data with
    | some e1 =>
      obtain ⟨caps, hs⟩ := tryPvp_search h1
      obtain ⟨sub, hsub, hM⟩ := search_suffix _ _ _ hs
      have hend : "!".data <:+ sub := reCat_lit_end_suffix pvpParts hM
      exact suffix_bang_getLast (hend.trans hsub)
    | none =>
      simp only [h1] at h
      exfalso
      cases h2 : tryGuild line.data with
      | some e2 =>
        simp only [h2] at h
        rw [← Option.some.inj h, tryGuild_pvp h2] at hp
        exact absurd hp (by decide)
      | none =>
        simp only [h2] at h
        cases h3 : trySlainBy line.data with
        | some e3 =>
          simp only [h3] at h
          rw [← Option.some.inj h, trySlainBy_pvp h3] at hp
          exact absurd hp (by decide)
        | none =>
          simp only [h3] at h
          rw [trySlain_pvp h] at hp
          exact absurd hp (by decide)
  · intro l caps hs
    obtain ⟨sub, hsub, hM⟩ := search_suffix _ _ _ hs
    exact (reCat_lit_tail_occurs guildParts hM).trans hsub.isInfix

/-- C7 witness: the PVP-requires-bang conjunct at a concrete line. -/
theorem claim7_witness :
    ("[PVP] Bob has killed Grimrod!" : String).data.getLast? = some '!' :=
  claim7_trailing_punctuation.1 "[PVP] Bob has killed Grimrod!"
    { npcName := "Grimrod", zone := none, pvp := 1,
      playerName := some "Bob", guildName := none }
    (by decide) rfl

/-! ## Claim C8: npcName trimming (corrected) -/

/-- Trimming is idempotent. -/
theorem trimWs_trimWs (l : List Char) : trimWs (trimWs l) = trimWs l :=
  trimWs_eq_self (trimWs_head l) (trimWs_last l)

/-- Every event built by the PVP branch carries a trimmed name. -/
theorem tryPvp_npc_trimmed {l : List Char} {e : SlainMatch} (h : tryPvp l = some e) :
    ∃ raw, e.npcName = ⟨trimWs raw⟩ := by
  unfold tryPvp at h
  cases hs : search pvpRE l with
  | none => simp only [hs] at h; exact absurd h (by simp)
  | some caps =>
    simp only [hs] at h
    cases hl : caps.lookup "npc" with
    | none => simp only [hl] at h; exact absurd h (by simp)
    | some raw =>
      simp only [hl] at h
      by_cases he : raw.isEmpty
      · simp only [he, if_true] at h; exact absurd h (by simp)
      · simp only [he, if_false] at h
        exact ⟨raw, by rw [← Option.some.inj h]⟩

/-- Every event built by the guild branch carries a trimmed name. -/
theorem tryGuild_npc_trimmed {l : List Char} {e : SlainMatch} (h : tryGuild l = some e) :
    ∃ raw, e.npcName = ⟨trimWs raw⟩ := by
  unfold tryGuild at h
  cases hs : search guildRE l with
  | none => simp only [hs] at h; exact absurd h (by simp)
  | some caps =>
    simp only [hs] at h
    cases hl : caps.lookup "npc" with
    | none => simp only [hl] at h; exact absurd h (by simp)
    | some raw =>
      simp only [hl] at h
      by_cases he : raw.isEmpty
      · simp only [he, if_true] at h; exact absurd h (by simp)
      · simp only [he, if_false] at h
        exact ⟨raw, by rw [← Option.some.inj h]⟩

/-- Every event built by the slain-by branch carries a trimmed name. -/
theorem trySlainBy_npc_trimmed {l : List Char} {e : SlainMatch} (h : trySlainBy l = some e) :
    ∃ raw, e.npcName = ⟨trimWs raw⟩ := by
  unfold trySlainBy at h
  cases hs : search slainByRE l with
  | none => simp only [hs] at h; exact absurd h (by simp)
  | some caps =>
    simp only [hs] at h
    cases hl : caps.lookup "npc" with
    | none => simp only [hl] at h; exact absurd h (by simp)
    | some raw =>
      simp only [hl] at h
      by_cases he : raw.isEmpty
      · simp only [he, if_true] at h; exact absurd h (by simp)
      · simp only [he, if_false] at h
        exact ⟨raw, by rw [← Option.some.inj h]⟩

/-- Every event built by the first-person branch carries a trimmed name. -/
theorem trySlain_npc_trimmed {l : List Char} {e : SlainMatch} (h : trySlain l = some e) :
    ∃ raw, e.npcName = ⟨trimWs raw⟩ := by
  unfold trySlain at h
  cases hs : search slainRE l with
  | none => simp only [hs] at h; exact absurd h (by simp)
  | some caps =>
    simp only [hs] at h
    cases hl : caps.lookup "npc" with
    | none => simp only [hl] at h; exact absurd h (by simp)
    | some raw =>
      simp only [hl] at h
      by_cases he : raw.isEmpty
      · simp only [he, if_true] at h; exact absurd h (by simp)
      · simp only [he, if_false] at h
        exact ⟨raw, by rw [← Option.some.inj h]⟩

/-- C8 counterexample to the claim as stated: the guards test only the
raw capture for truthiness, so an all-whitespace capture yields an event
whose `npcName` is empty after trimming — not a non-match. -/
theorem claim8_counterexample :
    parseSlainLine "  has been slain by Bob!" =
      some { npcName := "", zone := none, pvp := 0,
             playerName := some "Bob", guildName := none } := by
  decide

/-- C8 (amended): whenever `parseSlainLine` returns an event, `npcName`
is the trim of the raw captured name — always a trimmed string, but
possibly empty when the capture was all whitespace; the parser does not
reject names that are empty after trimming. -/
theorem claim8_npc_trimmed :
    ∀ (line : String) (e : SlainMatch), parseSlainLine line = some e →
      trimWs e.npcName.data = e.npcName.data := by
  intro line e h
  unfold parseSlainLine at h
  have finish : (∃ raw, e.npcName = ⟨trimWs raw⟩) → trimWs e.npcName.data = e.npcName.data := by
    rintro ⟨raw, hr⟩
    rw [hr]
    show trimWs (trimWs raw) = trimWs raw
    exact trimWs_trimWs raw
  cases h1 : tryPvp line.data with
  | some e1 =>
    simp only [h1] at h
    exact finish (Option.some.inj h ▸ tryPvp_npc_trimmed h1)
  | none =>
    simp only [h1] at h
    cases h2 : tryGuild line.data with
    | some e2 =>
      simp only [h2] at h
      exact finish (Option.some.inj h ▸ tryGuild_npc_trimmed h2)
    | none =>
      simp only [h2] at h
      cases h3 : trySlainBy line.data with
      | some e3 =>
        simp only [h3] at h
        exact finish (Option.some.inj h ▸ trySlainBy_npc_trimmed h3)
      | none =>
        simp only [h3] at h
        exact finish (trySlain_npc_trimmed h)

/-- C8 witness: the trimmed-name property at a concrete line. -/
theorem claim8_witness :
    trimWs ("a decaying skeleton" : String).data = ("a decaying skeleton" : String).data :=
  claim8_npc_trimmed "You have slain a decaying skeleton."
    { npcName := "a decaying skeleton", zone := none, pvp := 0,
      playerName := none, guildName := none }
    (by decide)

/-! ## Claim C9: parser exclusivity (corrected) -/

/-- C9 counterexample to mutual exclusivity as stated: this line is both
a scheduled-event announcement and a first-person kill line. -/
theorem claim9_counterexample :
    (parseEarthquakeLine "You have slain The next earthquake will begin in 5 Seconds.").isSome ∧
    (parseSlainLine "You have slain The next earthquake will begin in 5 Seconds.").isSome := by
  constructor
  · decide
  · decide

/-- C9 (amended): the two parsers are not mutually exclusive, but the
per-line dispatch gives the scheduled-event parse precedence — whenever
`parseEarthquakeLine` matches, the line is processed as an earthquake
and the kill parse is never consulted. -/
theorem claim9_dispatch_precedence :
    (∀ (line : String) (m : EarthquakeMatch), parseEarthquakeLine line = some m →
      processLine line = LineAction.earthquake m) ∧
    processLine "You have slain The next earthquake will begin in 5 Seconds." =
      LineAction.earthquake { days := 0, hours := 0, minutes := 0, seconds := 5 } := by
  constructor
  · intro line m h
    unfold processLine
    rw [h]
  · decide

/-- C9 witness: the precedence conjunct at a concrete ambiguous line. -/
theorem claim9_witness :
    processLine "You have slain The next earthquake will begin in 12 Seconds!" =
      LineAction.earthquake { days := 0, hours := 0, minutes := 0, seconds := 12 } :=
  claim9_dispatch_precedence.1 "You have slain The next earthquake will begin in 12 Seconds!"
    { days := 0, hours := 0, minutes := 0, seconds := 12 } (by decide)

/-! ## Claim C10: patterns anchored at the end only (corrected) -/

/-- A sequence headed by a literal fails when the literal does not match. -/
theorem M_lit_head_none {t : List Char} {r : RE} {inp : List Char} {caps : Caps}
    {k : List Char → Caps → Option Caps} (h : stripPre t inp = none) :
    M (RE.seq (RE.lit t) r) inp caps k = none := by
  show (M (RE.lit t) inp caps fun rest caps1 => M r rest caps1 k) = none
  rw [M, h]

/-- A literal that is not a prefix does not strip. -/
theorem stripPre_none_of_no {t inp : List Char} (h : ¬ (t <+: inp)) :
    stripPre t inp = none := by
  cases hs : stripPre t inp with
  | none => rfl
  | some rest => exact absurd ⟨rest, (stripPre_append t inp rest hs).symm⟩ h

/-- When no start position inside the prepended text can match, the scan
of the concatenation equals the scan of the tail. -/
theorem search_append (r : RE) :
    ∀ (P S : List Char),
      (∀ Q, Q ≠ [] → Q <:+ P → M r (Q ++ S) [] (fun _ c => some c) = none) →
      search r (P ++ S) = search r S := by
  intro P
  induction P with
  | nil => intro S h; rfl
  | cons c P2 ih =>
    intro S h
    have h0 := h (c :: P2) (List.cons_ne_nil c P2) (List.suffix_refl _)
    rw [List.cons_append] at h0 ⊢
    rw [search, h0]
    exact ih S (fun Q hne hsuf => h Q hne (hsuf.trans (List.suffix_cons c P2)))

/-- The concatenated PVP demonstration sentence. -/
def pvpSentence : List Char := "[PVP] Bob has killed Grimrod!".data

/-- With no `"[PVP]"` occurrence in the prefix, no start position inside
the prefix carries the PVP keyword (straddling the boundary is
impossible because the sentence itself starts with `'['`). -/
theorem no_pvp_head {P Q : List Char} (hP : ¬ ("[PVP]".data <:+: P))
    (hne : Q ≠ []) (hsuf : Q <:+ P) :
    ¬ ("[PVP]".data <+: Q ++ pvpSentence) := by
  intro hpre
  obtain ⟨r, hr⟩ := hpre
  by_cases hlen : 5 ≤ Q.length
  · have hq := List.take_append_drop 5 Q
    have hlen5 : ("[PVP]".data).length = (Q.take 5).length := by
      rw [List.length_take]
      have h5 : ("[PVP]".data).length = 5 := rfl
      rw [h5, Nat.min_eq_left hlen]
    rw [← hq, List.append_assoc] at hr
    obtain ⟨h1, _⟩ := List.append_inj hr hlen5
    have hpq : "[PVP]".data <+: Q := by rw [h1]; exact List.take_prefix 5 Q
    exact hP (hpq.isInfix.trans hsuf.isInfix)
  · have hk1 : 0 < Q.length := List.length_pos.mpr hne
    have ht := List.take_append_drop Q.length ("[PVP]".data)
    rw [← ht, List.append_assoc] at hr
    have hlenq : (("[PVP]".data).take Q.length).length = Q.length := by
      rw [List.length_take]
      have h5 : ("[PVP]".data).length = 5 := rfl
      rw [h5]
      exact Nat.min_eq_left (by omega)
    obtain ⟨_, h2⟩ := List.append_inj hr hlenq
    have hdrop : ("[PVP]".data).drop Q.length <+: pvpSentence := ⟨r, h2⟩
    have hcase : Q.length = 1 ∨ Q.length = 2 ∨ Q.length = 3 ∨ Q.length = 4 := by omega
    rcases hcase with h | h | h | h <;> rw [h] at hdrop <;> revert hdrop <;> decide

/-- A successful PVP branch decides `parseSlainLine`. -/
theorem parseSlainLine_of_tryPvp {line : String} {e : SlainMatch}
    (h : tryPvp line.data = some e) : parseSlainLine line = some e := by
  unfold parseSlainLine
  rw [h]

/-- C10 counterexample to the claim as stated: an arbitrary prefix can
interfere with the lazy captures — when the prefix itself contains
`"[PVP]"`, the leftmost match starts inside the prefix and captures the
wrong fields, so the event for the trailing well-formed sentence is not
returned. -/
theorem claim10_counterexample :
    parseSlainLine "[PVP] A has killed X! [PVP] B has killed G!" ≠
      some { npcName := "G", zone := none, pvp := 1,
             playerName := some "B", guildName := none } := by
  decide

/-- C10 (amended): the kill patterns are anchored only at the end of the
line, so a line need not begin with `"[PVP]"` for the PVP grammar to
match: for every prefix that does not itself contain `"[PVP]"` — such as
a log timestamp — prepending it to a well-formed PVP kill sentence
still yields the sentence's own KillEvent. -/
theorem claim10_end_anchored :
    ∀ P : List Char, ¬ ("[PVP]".data <:+: P) →
      parseSlainLine ⟨P ++ pvpSentence⟩ =
        some { npcName := "Grimrod", zone := none, pvp := 1,
               playerName := some "Bob", guildName := none } := by
  intro P hP
  have hsearch : search pvpRE (P ++ pvpSentence) = search pvpRE pvpSentence :=
    search_append pvpRE P pvpSentence (fun Q hne hsuf =>
      M_lit_head_none (stripPre_none_of_no (no_pvp_head hP hne hsuf)))
  apply parseSlainLine_of_tryPvp
  show tryPvp (P ++ pvpSentence) = _
  unfold tryPvp
  rw [hsearch]
  rfl

/-- C10 witness: a timestamp-like prefix before the PVP sentence. -/
theorem claim10_witness :
    parseSlainLine ⟨"2024-01-01 12:00 ".data ++ pvpSentence⟩ =
      some { npcName := "Grimrod", zone := none, pvp := 1,
             playerName := some "Bob", guildName := none } :=
  claim10_end_anchored "2024-01-01 12:00 ".data (by decide)
